import Mathlib

/-!
Shallow embedding of the Cairo VM core from
`src/starkware/cairo/lang/vm/virtual_machine_base.py`, and of the peripheral
key/value storage from `src/starkware/storage/storage.py` and
`src/starkware/storage/dict_storage.py`.

Conventions used throughout:
* Python dictionaries are embedded as association lists; `lookupPairs`,
  `setPair` and `delPair` mirror `d[k]` / `d.get(k)`, `d[k] = v` and
  `del d[k]` (dictionaries never hold duplicate keys, so first-match
  lookup agrees with the Python semantics on all states built through
  these operations).
* Python exceptions become `Except` errors; `VmException` wrapping in
  `as_vm_exception` only adds diagnostic context, so errors are
  propagated unwrapped here.
* Classes whose code is not under `src/` (`MemoryDict`,
  `ValidatedMemoryDict`, `is_call_instruction`,
  `decode_instruction_values`, the subclass methods
  `decode_current_instruction` / `run_instruction` / `check_eq`) are
  modelled from the spec; each such definition carries a doc comment
  saying so.
-/

/-- A two-part address `(segment_index, offset)`
(`starkware/cairo/lang/vm/relocatable.py`, not under `src/`; spec §3:
"Relocatable address. A pair (segment_index, offset)"). -/
structure RelocatableValue where
  segment_index : Int
  offset : Int
deriving DecidableEq, Repr

/-- A memory cell or register value: either a field element (embedded as an
unbounded integer, as in Python) or a relocatable address (spec §3
"MaybeRelocatable"). -/
inductive MaybeRelocatable where
  | int (n : Int)
  | rel (r : RelocatableValue)
deriving DecidableEq, Repr

/-- Subtraction of an integer, as used by `fp - 2`, `fp - 1`, `ret_pc - 2`,
`ret_pc - 1` in `get_traceback_entries`: plain integer subtraction on field
elements, offset subtraction on relocatables. -/
def MaybeRelocatable.subInt : MaybeRelocatable → Int → MaybeRelocatable
  | .int n, k => .int (n - k)
  | .rel r, k => .rel ⟨r.segment_index, r.offset - k⟩

/-- First-match association-list lookup, the embedding of Python
`d.get(k)` / `d[k]`. -/
def lookupPairs {α β : Type} [DecidableEq α] : List (α × β) → α → Option β
  | [], _ => none
  | p :: rest, k => if p.1 = k then some p.2 else lookupPairs rest k

/-- Association-list update, the embedding of Python `d[k] = v`: replaces the
binding if the key is present, otherwise appends it (preserving insertion
order, as Python dictionaries do). -/
def setPair {α β : Type} [DecidableEq α] : List (α × β) → α → β → List (α × β)
  | [], k, v => [(k, v)]
  | p :: rest, k, v => if p.1 = k then (k, v) :: rest else p :: setPair rest k v

/-- Association-list deletion, the embedding of Python `del d[k]` (removal of
the binding when present; the `step()` dels always target present keys). -/
def delPair {α β : Type} [DecidableEq α] : List (α × β) → α → List (α × β)
  | [], _ => []
  | p :: rest, k => if p.1 = k then rest else p :: delPair rest k

/-- The VM memory: a mapping `address → MaybeRelocatable` kept in insertion
order (`MemoryDict`, not under `src/`; spec §3 "Memory" and §4.1). -/
abbrev Memory : Type := List (MaybeRelocatable × MaybeRelocatable)

/-- Error kinds surfaced by the embedded code (spec §7). -/
inductive VmError where
  | inconsistentMemory (addr old new : MaybeRelocatable)
  | inconsistentAutoDeduction (addr current value : MaybeRelocatable)
  | unbalancedScope
  | cannotExitMainScope
  | indexError
  | keyError (addr : MaybeRelocatable)
  | valueError
  | typeError
  | validationFailed (addr : MaybeRelocatable)
  | hintFailed (msg : String)
deriving DecidableEq, Repr

/-- Modelled from the spec: `MemoryDict.get` (not under `src/`); spec §4.1
"get(addr) → MaybeRelocatable? — absent returns none". -/
def Memory.get (m : Memory) (addr : MaybeRelocatable) : Option MaybeRelocatable :=
  lookupPairs m addr

/-- Modelled from the spec: `MemoryDict.__setitem__` (not under `src/`);
spec §4.1 "set(addr, value) — inserts; if addr already holds old, requires
old == value ... else fails with InconsistentMemory". -/
def Memory.set (m : Memory) (addr value : MaybeRelocatable) : Except VmError Memory :=
  match Memory.get m addr with
  | some old => if old = value then .ok m else .error (.inconsistentMemory addr old value)
  | none => .ok (m ++ [(addr, value)])

/-- The written addresses of a memory, in insertion order (Python dict key
iteration order). -/
def Memory.keys (m : Memory) : List MaybeRelocatable := m.map (·.1)

/-- Modelled from the spec: a validation rule
(`starkware/cairo/lang/vm/validated_memory_dict.py`, not under `src/`);
spec §3 "Validation rule. A function (memory, address) → set of addresses it
has now validated ... rules run and may raise". -/
abbrev ValidationRule : Type :=
  Memory → RelocatableValue → Except VmError (List MaybeRelocatable)

/-- Modelled from the spec: `ValidatedMemoryDict` (not under `src/`); spec
§4.1 "Validated memory wraps Memory", holding per-segment validation rules
and the set of already-validated addresses. -/
structure ValidatedMemoryDict where
  memory : Memory
  validation_rules : List (Int × List ValidationRule)
  validated_addresses : List MaybeRelocatable

/-- The validation rules registered for a segment (Python
`validation_rules.get(segment_index, [])`). -/
def ValidatedMemoryDict.rulesFor (vm : ValidatedMemoryDict) (seg : Int) : List ValidationRule :=
  (lookupPairs vm.validation_rules seg).getD []

/-- Modelled from the spec: running each validation rule of the written
segment in order, accumulating the addresses they vet (spec §4.1 "it invokes
each rule with (memory, addr); each rule returns the set of addresses it has
now vetted, which are added to a validated set"). -/
def runValidationRules (m : Memory) (addr : RelocatableValue)
    (validated : List MaybeRelocatable) :
    List ValidationRule → Except VmError (List MaybeRelocatable)
  | [] => .ok validated
  | rule :: rest => do
      let vs ← rule m addr
      runValidationRules m addr (validated ++ vs) rest

/-- Modelled from the spec: `ValidatedMemoryDict.__setitem__` (not under
`src/`); spec §4.1: the underlying write-once set, then — unless the address
was already validated — the validation rules of its segment. -/
def ValidatedMemoryDict.set (vm : ValidatedMemoryDict) (addr value : MaybeRelocatable) :
    Except VmError ValidatedMemoryDict := do
  let m ← vm.memory.set addr value
  if addr ∈ vm.validated_addresses then
    .ok { vm with memory := m }
  else
    match addr with
    | .int _ => .ok { vm with memory := m }
    | .rel r => do
        let vs ← runValidationRules m r vm.validated_addresses (vm.rulesFor r.segment_index)
        .ok { vm with memory := m, validated_addresses := vs }

/-- A value bound in a hint scope. Python scope dictionaries are
heterogeneous; the constructors cover the bindings `step()` and `__init__`
install (integers, register values, the validated memory, the inline
finite-field lambdas) plus opaque host objects.  `hostFn` stands for a
function whose body lives outside `src/` (`math_utils`), `obj` for any other
host object (builtin runners, user locals, `ids` views). -/
inductive HintLocal where
  | int (n : Int)
  | val (v : MaybeRelocatable)
  | mem (m : ValidatedMemoryDict)
  | intFn2 (f : Int → Int → Int)
  | hostFn (name : String)
  | obj (name : String)
  | vmLoadProgram
  | vmEnterScope
  | vmExitScope

/-- A scope of user-defined local variables available to hints: a dictionary
from names to values (spec §3 "Scope stack"). -/
abbrev Scope : Type := List (String × HintLocal)

/-- Dictionary lookup on a scope. -/
def Scope.lookup (d : Scope) (k : String) : Option HintLocal := lookupPairs d k

/-- Dictionary assignment on a scope (`d[k] = v`). -/
def Scope.set (d : Scope) (k : String) (v : HintLocal) : Scope := setPair d k v

/-- Dictionary deletion on a scope (`del d[k]`). -/
def Scope.del (d : Scope) (k : String) : Scope := delPair d k

/-- Python `d.update(upds)`: assign every binding of `upds` into `d`, in
order. -/
def Scope.update (d : Scope) (upds : List (String × HintLocal)) : Scope :=
  upds.foldl (fun acc p => acc.set p.1 p.2) d

/-- The part of the VM a hint can reach through its bindings: the validated
memory (binding `memory`), the scope stack (its own locals dictionary is the
top scope, and `vm_enter_scope` / `vm_exit_scope` mutate the stack), and the
shared `skip_instruction_execution` flag.  Registers, the trace and the hint
registry are not bound, so hint code cannot reach them (the
`vm_load_program` effect on the hint registry is not modelled; `step()`
iterates over the hint list fetched at loop entry, so it cannot affect the
current step). -/
structure HintVm where
  validated_memory : ValidatedMemoryDict
  exec_scopes : List Scope
  skip_instruction_execution : Bool

/-- The compiled code of a hint: an opaque host-side state transformer over
the hint-visible VM state, which may fail (spec §4.4 "exec(opaque, bindings)
→ either (updates to bindings + side effects on vm) or error"). -/
abbrev Hint : Type := HintVm → Except VmError HintVm

/-- `CompiledHint`: the compiled code together with the `consts` builder
producing the per-invocation `ids` view from `(pc, ap, fp, memory)`. -/
structure CompiledHint where
  compiled : Hint
  consts : MaybeRelocatable → MaybeRelocatable → MaybeRelocatable →
      ValidatedMemoryDict → HintLocal

/-- An auto-deduction rule.  In Python a rule is called as
`rule(vm, addr, *args)`; its observable input is the memory (spec §3: rules
deduce "based on other memory cells"), and the extra arguments are captured
in the closure, so a rule is embedded as a function of the memory and the
address. -/
abbrev Rule : Type := Memory → RelocatableValue → Option MaybeRelocatable

/-- The registers of `RunContextBase`.  The `memory` field of the Python
class aliases the memory held by the VM's `ValidatedMemoryDict`, so the
memory is stored once, in `VmState`. -/
structure RunContext where
  pc : MaybeRelocatable
  ap : MaybeRelocatable
  fp : MaybeRelocatable
  prime : Int

/-- One trace entry `{pc, ap, fp}` (`trace_entry.py`, not under `src/`;
spec §3 "Trace"). -/
structure TraceEntry where
  pc : MaybeRelocatable
  ap : MaybeRelocatable
  fp : MaybeRelocatable
deriving DecidableEq, Repr

/-- The state of `VirtualMachineBase` (plus the `current_step` / `trace`
fields that the Python subclass adds and the base class reads).  `check_eq`
is the subclass-overridable equality predicate used by
`verify_auto_deductions`. -/
structure VmState where
  prime : Int
  builtin_runners : Scope
  exec_scopes : List Scope
  hints : List (MaybeRelocatable × List CompiledHint)
  validated_memory : ValidatedMemoryDict
  auto_deduction : List (Int × List Rule)
  static_locals : Scope
  run_context : RunContext
  skip_instruction_execution : Bool
  trace : List TraceEntry
  current_step : Int
  check_eq : MaybeRelocatable → MaybeRelocatable → Bool

/-- The auto-deduction rules registered for a segment
(`self.auto_deduction.get(addr.segment_index, [])`). -/
def VmState.rulesFor (s : VmState) (seg : Int) : List Rule :=
  (lookupPairs s.auto_deduction seg).getD []

/-- `add_auto_deduction_rule`: appends the rule to the segment's list. -/
def add_auto_deduction_rule (s : VmState) (segment_index : Int) (rule : Rule) : VmState :=
  { s with auto_deduction :=
      setPair s.auto_deduction segment_index (s.rulesFor segment_index ++ [rule]) }

/-- `enter_scope`: pushes `{**new_scope_locals, **self.builtin_runners}`.
The Lean list keeps the top of the stack at the head (Python appends at the
end and reads index `-1`). -/
def enter_scope (s : VmState) (new_scope_locals : Option Scope) : VmState :=
  { s with exec_scopes :=
      Scope.update (new_scope_locals.getD []) s.builtin_runners :: s.exec_scopes }

/-- `exit_scope`: `assert len(self.exec_scopes) > 1, "Cannot exit main
scope."; self.exec_scopes.pop()`. -/
def exit_scope (s : VmState) : Except VmError VmState :=
  if s.exec_scopes.length > 1 then
    .ok { s with exec_scopes := s.exec_scopes.tail }
  else
    .error .cannotExitMainScope

/-- The static locals the constructor installs on top of the user-supplied
ones.  `fadd`/`fsub`/`fmul` are the inline lambdas of the source; `fpow` is
`pow(a, b, p)` (embedded for non-negative exponents); `fdiv`,
`fis_quad_residue`, `fsqrt` and `safe_div` come from `math_utils`, which is
not under `src/`, and stay opaque. -/
def builtinStaticLocals (prime : Int) : List (String × HintLocal) :=
  [("PRIME", .int prime),
   ("fadd", .intFn2 (fun a b => (a + b) % prime)),
   ("fsub", .intFn2 (fun a b => (a - b) % prime)),
   ("fmul", .intFn2 (fun a b => (a * b) % prime)),
   ("fdiv", .hostFn "math_utils.div_mod"),
   ("fpow", .intFn2 (fun a b => (a ^ b.toNat) % prime)),
   ("fis_quad_residue", .hostFn "math_utils.is_quad_residue"),
   ("fsqrt", .hostFn "math_utils.sqrt"),
   ("safe_div", .hostFn "math_utils.safe_div")]

/-- The constructor's static-locals computation: copy the user-supplied
dictionary (empty when absent), then update it with the built-in static
locals. -/
def mkStaticLocals (user : Option Scope) (prime : Int) : Scope :=
  Scope.update (user.getD []) (builtinStaticLocals prime)

/-- `VirtualMachineBase.__init__` (restricted to the state the claims
touch): empty registries, one scope pushed via
`enter_scope(dict(hint_locals))`, the validated memory wrapping the run
context's memory, and the static locals above.  `current_step = 0` and the
empty trace are the subclass (`VirtualMachine`) initialisation, modelled
from the spec (§3 "Trace": `current_step` is the 0-based index of the next
entry). -/
def initVm (program_prime : Int) (hint_locals : Scope) (static_locals : Option Scope)
    (builtin_runners : Scope) (run_context : RunContext) (memory : Memory)
    (check_eq : MaybeRelocatable → MaybeRelocatable → Bool) : VmState :=
  let s : VmState :=
    { prime := program_prime
      builtin_runners := builtin_runners
      exec_scopes := []
      hints := []
      validated_memory :=
        { memory := memory, validation_rules := [], validated_addresses := [] }
      auto_deduction := []
      static_locals := mkStaticLocals static_locals program_prime
      run_context := run_context
      skip_instruction_execution := false
      trace := []
      current_step := 0
      check_eq := check_eq }
  enter_scope s (some hint_locals)

/-- The hints registered at an address (`self.hints.get(pc, [])`). -/
def hintsAt (s : VmState) (pc : MaybeRelocatable) : List CompiledHint :=
  (lookupPairs s.hints pc).getD []

/-- The binding overlay `step()` performs on `exec_locals = exec_scopes[-1]`
before executing one hint: `memory`, `ap`, `fp`, `pc`, `current_step`,
`ids = hint.consts(pc, ap, fp, memory)`, `vm_load_program`,
`vm_enter_scope`, `vm_exit_scope`, then `exec_locals.update(static_locals)`.
The top scope is mutated in place in Python, so the result replaces the top
of the stack.  On an empty scope stack the state is returned unchanged; the
caller (`execHints`) raises the IndexError of `exec_scopes[-1]` first. -/
def prepareLocals (s : VmState) (hint : CompiledHint) : VmState :=
  match s.exec_scopes with
  | [] => s
  | top :: rest =>
    let top := top.set "memory" (.mem s.validated_memory)
    let top := top.set "ap" (.val s.run_context.ap)
    let top := top.set "fp" (.val s.run_context.fp)
    let top := top.set "pc" (.val s.run_context.pc)
    let top := top.set "current_step" (.int s.current_step)
    let top := top.set "ids"
      (hint.consts s.run_context.pc s.run_context.ap s.run_context.fp s.validated_memory)
    let top := top.set "vm_load_program" .vmLoadProgram
    let top := top.set "vm_enter_scope" .vmEnterScope
    let top := top.set "vm_exit_scope" .vmExitScope
    let top := top.update s.static_locals
    { s with exec_scopes := top :: rest }

/-- The hint-visible view of the VM state. -/
def VmState.toHintVm (s : VmState) : HintVm :=
  { validated_memory := s.validated_memory
    exec_scopes := s.exec_scopes
    skip_instruction_execution := s.skip_instruction_execution }

/-- Writing the hint-visible state back into the VM. -/
def VmState.applyHintVm (s : VmState) (hv : HintVm) : VmState :=
  { s with
    validated_memory := hv.validated_memory
    exec_scopes := hv.exec_scopes
    skip_instruction_execution := hv.skip_instruction_execution }

/-- The two dels after a hint runs: `del exec_locals["ids"]` and
`del exec_locals["memory"]`.  In Python they apply to the dictionary fetched
before the hint ran; that dictionary is the top scope again whenever the
hint left the scope-stack height unchanged, which is the situation the
claims examine, so the dels are applied to the current top scope (and are
no-ops on a missing key). -/
def delHintBindings (s : VmState) : VmState :=
  match s.exec_scopes with
  | [] => s
  | top :: rest => { s with exec_scopes := (top.del "ids").del "memory" :: rest }

/-- The hint loop of `step()`: for each hint at the current pc, overlay the
bindings, execute the compiled hint, remove `ids`/`memory`, and return early
when the hint set `skip_instruction_execution`.  The returned flag records
whether the loop aborted the step (`True` exactly on the early `return`). -/
def execHints (s : VmState) : List CompiledHint → Except VmError (VmState × Bool)
  | [] => .ok (s, false)
  | hint :: rest =>
    match s.exec_scopes with
    | [] => .error .indexError
    | _ :: _ => do
      let s1 := prepareLocals s hint
      let hv ← hint.compiled s1.toHintVm
      let s2 := s1.applyHintVm hv
      let s3 := delHintBindings s2
      if s3.skip_instruction_execution then .ok (s3, true) else execHints s3 rest

/-- `step()`.  `decodeAndRun` is the subclass's
`decode_current_instruction()` followed by `run_instruction(...)`; both are
abstract in `VirtualMachineBase` (modelled from the spec, §4.5), so `step`
is parameterised over their combined effect. -/
def step (decodeAndRun : VmState → Except VmError VmState) (s : VmState) :
    Except VmError VmState := do
  let s0 := { s with skip_instruction_execution := false }
  let (s1, skipped) ← execHints s0 (hintsAt s0 s0.run_context.pc)
  if skipped then .ok s1 else decodeAndRun s1

/-- The rule loop of `deduce_memory_cell`: call each rule in order; on the
first non-none value, write it through the validated memory and return it;
otherwise return none with the state unchanged. -/
def deduceLoop (s : VmState) (addr : RelocatableValue) :
    List Rule → Except VmError (Option MaybeRelocatable × VmState)
  | [] => .ok (none, s)
  | rule :: rest =>
    match rule s.validated_memory.memory addr with
    | none => deduceLoop s addr rest
    | some value => do
        let vm ← s.validated_memory.set (.rel addr) value
        .ok (some value, { s with validated_memory := vm })

/-- `deduce_memory_cell(addr)`: none for a non-relocatable address,
otherwise the rule loop over the rules of the address's segment. -/
def deduce_memory_cell (s : VmState) (addr : MaybeRelocatable) :
    Except VmError (Option MaybeRelocatable × VmState) :=
  match addr with
  | .rel r => deduceLoop s r (s.rulesFor r.segment_index)
  | .int _ => .ok (none, s)

/-- The claim's reading of `deduce_memory_cell`, stated with `findSome?`:
a non-relocatable address yields none with no state change regardless of the
registered rules; otherwise the first rule (in insertion order) returning a
value wins, that value is written through the validated memory, and it is
returned; if no rule fires the result is none. -/
def deduce_memory_cell_claim (s : VmState) (addr : MaybeRelocatable) :
    Except VmError (Option MaybeRelocatable × VmState) :=
  match addr with
  | .int _ => .ok (none, s)
  | .rel r =>
    match (s.rulesFor r.segment_index).findSome?
        (fun rule => rule s.validated_memory.memory r) with
    | none => .ok (none, s)
    | some value =>
        (s.validated_memory.set (.rel r) value).map
          (fun vm => (some value, { s with validated_memory := vm }))

/-- The inner rule loop of `verify_auto_deductions` for one written address:
for each rule of the segment, a produced value must equal the stored value
`validated_memory[addr]`, with `check_eq` as escape hatch; the first
mismatch raises `InconsistentAutoDeductionError(addr, current, value)`. -/
def verifyRules (chk : MaybeRelocatable → MaybeRelocatable → Bool) (m : Memory)
    (addr : RelocatableValue) : List Rule → Except VmError Unit
  | [] => .ok ()
  | rule :: rest =>
    match rule m addr with
    | none => verifyRules chk m addr rest
    | some value =>
      match m.get (.rel addr) with
      | none => .error (.keyError (.rel addr))
      | some current =>
        if current ≠ value ∧ chk current value = false then
          .error (.inconsistentAutoDeduction (.rel addr) current value)
        else
          verifyRules chk m addr rest

/-- The outer loop of `verify_auto_deductions` over the written addresses:
non-relocatable addresses are skipped. -/
def verifyAddrs (s : VmState) : List MaybeRelocatable → Except VmError Unit
  | [] => .ok ()
  | addr :: rest =>
    match addr with
    | .int _ => verifyAddrs s rest
    | .rel r => do
        verifyRules s.check_eq s.validated_memory.memory r (s.rulesFor r.segment_index)
        verifyAddrs s rest

/-- `verify_auto_deductions()`: every assigned memory cell must be
consistent with the auto-deduction rules of its segment. -/
def verify_auto_deductions (s : VmState) : Except VmError Unit :=
  verifyAddrs s s.validated_memory.memory.keys

/-- `end_run()`: run `verify_auto_deductions()`, then require exactly one
scope (`raise VmExceptionBase("Every enter_scope() requires a corresponding
exit_scope.")` otherwise). -/
def end_run (s : VmState) : Except VmError Unit := do
  verify_auto_deductions s
  if s.exec_scopes.length ≠ 1 then .error .unbalancedScope else .ok ()

/-- `MAX_TRACEBACK_ENTRIES = 20`. -/
def MAX_TRACEBACK_ENTRIES : Nat := 20

/-- The frame walk of `RunContextBase.get_traceback_entries`, with the
remaining iteration count of `for _ in range(MAX_TRACEBACK_ENTRIES)` made
explicit.  `isCall` is `is_call_instruction(encoded_instruction, imm)`
(`starkware/cairo/lang/compiler/encode.py`, not under `src/`), kept as an
opaque predicate parameter.  Entries are appended in walk order; the caller
reverses them. -/
def tracebackLoop (isCall : MaybeRelocatable → Option MaybeRelocatable → Bool)
    (mem : Memory) :
    Nat → MaybeRelocatable → List MaybeRelocatable → List MaybeRelocatable
  | 0, _, entries => entries
  | n + 1, fp, entries =>
    if mem.get (fp.subInt 2) = some fp then entries
    else
      match mem.get (fp.subInt 2), mem.get (fp.subInt 1) with
      | some fp₁, some ret_pc =>
        match mem.get (ret_pc.subInt 1) with
        | none => entries
        | some i1 =>
          if isCall i1 none then
            tracebackLoop isCall mem n fp₁ (entries ++ [ret_pc.subInt 1])
          else
            match mem.get (ret_pc.subInt 2) with
            | none => entries
            | some i0 =>
              if isCall i0 (some i1) then
                tracebackLoop isCall mem n fp₁ (entries ++ [ret_pc.subInt 2])
              else entries
      | _, _ => entries

/-- `get_traceback_entries()`: walk the frames starting from the current
`fp` and return the collected call pcs reversed (most recent call last). -/
def get_traceback_entries (isCall : MaybeRelocatable → Option MaybeRelocatable → Bool)
    (mem : Memory) (fp : MaybeRelocatable) : List MaybeRelocatable :=
  (tracebackLoop isCall mem MAX_TRACEBACK_ENTRIES fp []).reverse

/-- Python `min(list)`: none on the empty list (where Python raises
ValueError), otherwise the least element. -/
def listMin : List Int → Option Int
  | [] => none
  | x :: xs => some (xs.foldl min x)

/-- Python `max(list)`: none on the empty list (where Python raises
ValueError), otherwise the greatest element. -/
def listMax : List Int → Option Int
  | [] => none
  | x :: xs => some (xs.foldl max x)

/-- The offset-collection loop of `get_perm_range_check_limits`: for each
trace entry, `memory[entry.pc]` (KeyError when absent, and a TypeError
inside the decoder when the cell is not a field element) is decoded by
`decode_instruction_values` — not under `src/`, kept as the parameter
`decode`, returning `(flags, off0, off1, off2)` — and the three offsets are
appended. -/
def collectOffsets (decode : Int → Int × Int × Int × Int) (memory : Memory) :
    List TraceEntry → Except VmError (List Int)
  | [] => .ok []
  | entry :: rest =>
    match memory.get entry.pc with
    | none => .error (.keyError entry.pc)
    | some (.rel _) => .error .typeError
    | some (.int encoded_instruction) =>
      match decode encoded_instruction with
      | (_, off0, off1, off2) =>
        (collectOffsets decode memory rest).map (fun offs => [off0, off1, off2] ++ offs)

/-- `get_perm_range_check_limits(trace, memory)`: collect `(off0, off1,
off2)` of the decoded instruction at every trace entry's pc and return
`(min(offsets), max(offsets))`. -/
def get_perm_range_check_limits (decode : Int → Int × Int × Int × Int)
    (trace : List TraceEntry) (memory : Memory) : Except VmError (Int × Int) := do
  let offsets ← collectOffsets decode memory trace
  match listMin offsets, listMax offsets with
  | some mn, some mx => .ok (mn, mx)
  | _, _ => .error .valueError

/-- The offsets of one trace entry as the claim words them (empty junk value
off the claim's domain, where the entry's pc is not a stored field
element). -/
def entryOffsets (decode : Int → Int × Int × Int × Int) (memory : Memory)
    (entry : TraceEntry) : List Int :=
  match memory.get entry.pc with
  | some (.int encoded_instruction) =>
    match decode encoded_instruction with
    | (_, off0, off1, off2) => [off0, off1, off2]
  | _ => []

/-- All offsets decoded from `memory[entry.pc]` across all trace entries, in
trace order. -/
def allOffsets (decode : Int → Int × Int × Int × Int) (memory : Memory)
    (trace : List TraceEntry) : List Int :=
  (trace.map (entryOffsets decode memory)).flatten

/-- Byte strings, the key and value type of the storage interface. -/
abbrev Bytes : Type := List Nat

/-- Error raised by the storage layer: `NotImplementedError` carrying the
formatted message. -/
inductive StorageError where
  | notImplementedError (msg : String)
deriving DecidableEq, Repr

/-- `DictStorage`: local storage using a dict. -/
structure DictStorage where
  db : List (Bytes × Bytes)
deriving DecidableEq, Repr

/-- `DictStorage.set_value`: `self.db[key] = value`. -/
def DictStorage.set_value (s : DictStorage) (key value : Bytes) : DictStorage :=
  { db := setPair s.db key value }

/-- `DictStorage.get_value`: `self.db.get(key, None)`. -/
def DictStorage.get_value (s : DictStorage) (key : Bytes) : Option Bytes :=
  lookupPairs s.db key

/-- `DictStorage.del_value`: delete, swallowing the KeyError when the key is
absent. -/
def DictStorage.del_value (s : DictStorage) (key : Bytes) : DictStorage :=
  { db := delPair s.db key }

/-- The base class body of `Storage.setnx_value`:
`raise NotImplementedError(f"...")`.  `DictStorage` (and `CachedStorage`) do
not override it, so this inherited method is what runs on every storage of
the repository; it never touches the store and never returns a flag. -/
def DictStorage.setnx_value (_s : DictStorage) (_key _value : Bytes) :
    Except StorageError (Bool × DictStorage) :=
  .error (.notImplementedError "DictStorage does not implement setnx_value")

/-- What claim C9 says `setnx_value` does: insert only if the key is absent
and return whether it inserted. -/
def setnx_value_claim (s : DictStorage) (key value : Bytes) :
    Except StorageError (Bool × DictStorage) :=
  match s.get_value key with
  | some _ => .ok (false, s)
  | none => .ok (true, s.set_value key value)

/-- The rule loop of `deduce_memory_cell` returns the first value produced
by a rule, in list (insertion) order, writing it through the validated
memory. -/
theorem deduceLoop_eq_findSome (s : VmState) (r : RelocatableValue) :
    ∀ rules : List Rule,
      deduceLoop s r rules =
        match rules.findSome? (fun rule => rule s.validated_memory.memory r) with
        | none => .ok (none, s)
        | some value =>
            (s.validated_memory.set (.rel r) value).map
              (fun vm => (some value, { s with validated_memory := vm }))
  | [] => rfl
  | rule :: rest => by
      simp only [deduceLoop, List.findSome?_cons]
      cases h : rule s.validated_memory.memory r with
      | none => simpa using deduceLoop_eq_findSome s r rest
      | some value =>
          cases hset : s.validated_memory.set (.rel r) value with
          | ok vm => simp [bind, Except.bind, hset, Except.map]
          | error e => simp [bind, Except.bind, hset, Except.map]

/-- C1: for every address `addr`, `deduce_memory_cell(addr)` returns none
without invoking any rule when `addr` is not relocatable (the result and the
state are independent of the registered rules); otherwise it calls the
auto-deduction rules registered for `addr`'s segment in insertion order and,
for the first rule returning a non-none value `v`, writes `v` to validated
memory at `addr` and returns `v`; if no rule fires it returns none. -/
theorem deduce_memory_cell_matches_claim (s : VmState) (addr : MaybeRelocatable) :
    deduce_memory_cell s addr = deduce_memory_cell_claim s addr := by
  cases addr with
  | int n => rfl
  | rel r =>
      simpa [deduce_memory_cell, deduce_memory_cell_claim] using
        deduceLoop_eq_findSome s r (s.rulesFor r.segment_index)

/-- C10: for the empty trace and any memory, `get_perm_range_check_limits`
does not return a pair: `min`/`max` of the empty offset list raise
ValueError, so a non-empty trace is a precondition of the operation. -/
theorem get_perm_range_check_limits_empty_trace (decode : Int → Int × Int × Int × Int)
    (memory : Memory) :
    get_perm_range_check_limits decode [] memory = .error .valueError := rfl

/-- C9 counterexample: on the empty `DictStorage` (a Storage of this
repository) with an absent key, `setnx_value` does not insert-and-report as
the claim states; it raises NotImplementedError, because no Storage under
`src/` implements `setnx_value`. -/
theorem setnx_value_counterexample :
    DictStorage.setnx_value ⟨[]⟩ [0] [1] ≠ setnx_value_claim ⟨[]⟩ [0] [1] := by
  intro h
  exact Except.noConfusion h

/-- C9 amended: for every Storage in this repository (base `Storage`,
`DictStorage`, `CachedStorage` — none overrides `setnx_value`), and every
key and value, `setnx_value(key, value)` raises
`NotImplementedError` and leaves the storage unchanged, rather than
inserting and returning whether it inserted. -/
theorem setnx_value_not_implemented (s : DictStorage) (key value : Bytes) :
    DictStorage.setnx_value s key value =
      .error (.notImplementedError "DictStorage does not implement setnx_value") := rfl

/-- A scope-stack operation, as available to hints through `vm_enter_scope`
and `vm_exit_scope`.  The scope stack is mutated only through these two
calls (spec §5). -/
inductive ScopeOp where
  | enter (new_scope_locals : Option Scope)
  | exit

/-- Applying one scope operation to the VM: a failing `exit_scope` (the
assertion on the main scope) leaves the state unchanged. -/
def applyScopeOp (s : VmState) : ScopeOp → VmState
  | .enter l => enter_scope s l
  | .exit =>
    match exit_scope s with
    | .ok s₁ => s₁
    | .error _ => s

/-- Any sequence of `enter_scope` / `exit_scope` calls keeps the scope stack
non-empty and keeps the base (main) scope at the bottom. -/
theorem scopeOps_preserve (ops : List ScopeOp) :
    ∀ s : VmState, s.exec_scopes ≠ [] →
      (ops.foldl applyScopeOp s).exec_scopes ≠ [] ∧
      (ops.foldl applyScopeOp s).exec_scopes.getLast? = s.exec_scopes.getLast? := by
  induction ops with
  | nil => intro s hs; exact ⟨hs, rfl⟩
  | cons op rest ih =>
      intro s hs
      obtain ⟨b, t, hbt⟩ := List.exists_cons_of_ne_nil hs
      have hstep : (applyScopeOp s op).exec_scopes ≠ [] ∧
          (applyScopeOp s op).exec_scopes.getLast? = s.exec_scopes.getLast? := by
        cases op with
        | enter l =>
            refine ⟨by simp [applyScopeOp, enter_scope], ?_⟩
            simp only [applyScopeOp, enter_scope]
            rw [hbt]
            exact List.getLast?_cons_cons
        | exit =>
            simp only [applyScopeOp, exit_scope]
            by_cases hlen : s.exec_scopes.length > 1
            · rw [if_pos hlen]
              rcases t with _ | ⟨c, t₁⟩
              · rw [hbt] at hlen; simp at hlen
              · constructor
                · rw [hbt]; simp
                · rw [hbt]
                  exact List.getLast?_cons_cons.symm
            · rw [if_neg hlen]; exact ⟨hs, rfl⟩
      obtain ⟨h₁, h₂⟩ := ih (applyScopeOp s op) hstep.1
      exact ⟨h₁, hstep.2 ▸ h₂⟩

/-- C4: the scope stack is non-empty at every point of every run.  The
constructor pushes the main scope (stack length 1); `enter_scope` only
pushes; `exit_scope` fails — leaving the state unchanged — whenever only
the main scope is present, and otherwise only pops a non-main scope; hence
along any sequence of scope operations from a freshly constructed VM the
stack stays non-empty and the base scope is never removed. -/
theorem scope_stack_never_empty (program_prime : Int) (hint_locals : Scope)
    (static_locals : Option Scope) (builtin_runners : Scope) (run_context : RunContext)
    (memory : Memory) (check_eq : MaybeRelocatable → MaybeRelocatable → Bool)
    (ops : List ScopeOp) :
    (initVm program_prime hint_locals static_locals builtin_runners run_context memory
        check_eq).exec_scopes.length = 1 ∧
    (∀ (s : VmState) (l : Option Scope),
      (enter_scope s l).exec_scopes.length = s.exec_scopes.length + 1) ∧
    (∀ s : VmState, s.exec_scopes.length ≤ 1 →
      exit_scope s = .error .cannotExitMainScope) ∧
    (∀ s s₁ : VmState, exit_scope s = .ok s₁ →
      s₁.exec_scopes.length + 1 = s.exec_scopes.length) ∧
    1 ≤ ((ops.foldl applyScopeOp
        (initVm program_prime hint_locals static_locals builtin_runners run_context memory
          check_eq)).exec_scopes).length ∧
    ((ops.foldl applyScopeOp
        (initVm program_prime hint_locals static_locals builtin_runners run_context memory
          check_eq)).exec_scopes).getLast? =
      (initVm program_prime hint_locals static_locals builtin_runners run_context memory
        check_eq).exec_scopes.getLast? := by
  refine ⟨rfl, fun s l => by simp [enter_scope], ?_, ?_, ?_, ?_⟩
  · intro s hlen
    simp only [exit_scope]
    rw [if_neg (by omega)]
  · intro s s₁ h
    simp only [exit_scope] at h
    by_cases hlen : s.exec_scopes.length > 1
    · rw [if_pos hlen] at h
      cases h
      simp only [List.length_tail]
      omega
    · rw [if_neg hlen] at h
      exact absurd h (by simp)
  · have h := scopeOps_preserve ops
      (initVm program_prime hint_locals static_locals builtin_runners run_context memory
        check_eq) (by simp [initVm, enter_scope])
    exact Nat.one_le_iff_ne_zero.mpr (fun hz => h.1 (List.eq_nil_of_length_eq_zero hz))
  · exact (scopeOps_preserve ops
      (initVm program_prime hint_locals static_locals builtin_runners run_context memory
        check_eq) (by simp [initVm, enter_scope])).2

/-- A concrete run context used by the witnesses. -/
def rc0 : RunContext := ⟨.int 0, .int 0, .int 0, 13⟩

/-- A concrete trivially-true `check_eq` used by the witnesses. -/
def chkTrue : MaybeRelocatable → MaybeRelocatable → Bool := fun _ _ => true

/-- A concrete freshly constructed VM used by the witnesses. -/
def sInit : VmState := initVm 13 [] none [] rc0 [] chkTrue

/-- Witness for C4 at a concrete run: one unmatched `enter_scope` followed
by three `exit_scope` attempts still leaves a non-empty stack, and
`exit_scope` on the freshly constructed VM (only the main scope present)
fails. -/
theorem scope_stack_witness :
    1 ≤ (([ScopeOp.enter none, .exit, .exit, .exit].foldl applyScopeOp
        sInit).exec_scopes).length ∧
    exit_scope sInit = .error .cannotExitMainScope := by
  have h := scope_stack_never_empty 13 [] none [] rc0 [] chkTrue
    [ScopeOp.enter none, .exit, .exit, .exit]
  exact ⟨h.2.2.2.2.1, h.2.2.1 sInit (by decide)⟩

/-- C5: `end_run()` first runs `verify_auto_deductions()` — an error there
propagates as such — and then fails with UnbalancedScope if and only if
the scope stack does not contain exactly one entry. -/
theorem end_run_scope_balance (s : VmState) :
    (∀ e : VmError, verify_auto_deductions s = .error e → end_run s = .error e) ∧
    (verify_auto_deductions s = .ok () →
      ((end_run s = .ok () ↔ s.exec_scopes.length = 1) ∧
       (end_run s = .error .unbalancedScope ↔ s.exec_scopes.length ≠ 1))) := by
  constructor
  · intro e he
    simp [end_run, bind, Except.bind, he]
  · intro hok
    by_cases hlen : s.exec_scopes.length = 1
    · constructor
      · simp [end_run, bind, Except.bind, hok, hlen]
      · simp [end_run, bind, Except.bind, hok, hlen]
    · constructor
      · simp [end_run, bind, Except.bind, hok, hlen]
      · simp [end_run, bind, Except.bind, hok, hlen]

/-- Witness for C5, the two scenarios of the claim on a concrete VM:
`enter_scope({x: 1}); enter_scope(); exit_scope(); exit_scope(); end_run()`
succeeds, while after a single unmatched `enter_scope()` `end_run()` fails
with UnbalancedScope. -/
theorem end_run_witness :
    exit_scope (enter_scope (enter_scope sInit (some [("x", HintLocal.int 1)])) none) =
      .ok (enter_scope sInit (some [("x", HintLocal.int 1)])) ∧
    exit_scope (enter_scope sInit (some [("x", HintLocal.int 1)])) = .ok sInit ∧
    end_run sInit = .ok () ∧
    end_run (enter_scope sInit none) = .error .unbalancedScope := by
  refine ⟨rfl, rfl, ?_, ?_⟩
  · exact ((end_run_scope_balance sInit).2 rfl).1.mpr rfl
  · exact ((end_run_scope_balance (enter_scope sInit none)).2 rfl).2.mpr (by decide)

/-- A written address has a stored value. -/
theorem Memory.get_isSome_of_mem_keys (m : Memory) (a : MaybeRelocatable) :
    a ∈ m.keys → ∃ v, m.get a = some v := by
  induction m with
  | nil => intro h; simp [Memory.keys] at h
  | cons p rest ih =>
      intro h
      by_cases hk : p.1 = a
      · exact ⟨p.2, by simp [Memory.get, lookupPairs, hk]⟩
      · have : a ∈ Memory.keys rest := by
          simp [Memory.keys] at h ⊢
          rcases h with h | h
          · exact absurd h.symm (by simpa using hk)
          · simpa using h
        obtain ⟨v, hv⟩ := ih this
        exact ⟨v, by simpa [Memory.get, lookupPairs, hk] using hv⟩

/-- The inner rule loop of `verify_auto_deductions` succeeds exactly when
every value produced by a rule matches the stored value up to `check_eq`. -/
theorem verifyRules_ok_iff (chk : MaybeRelocatable → MaybeRelocatable → Bool)
    (m : Memory) (r : RelocatableValue) (current₀ : MaybeRelocatable)
    (hcur : m.get (.rel r) = some current₀) :
    ∀ rules : List Rule,
      (verifyRules chk m r rules = .ok () ↔
        ∀ rule ∈ rules, ∀ value, rule m r = some value →
          current₀ = value ∨ chk current₀ value = true)
  | [] => by simp [verifyRules]
  | rule :: rest => by
      cases h : rule m r with
      | none =>
          have hstep : verifyRules chk m r (rule :: rest) = verifyRules chk m r rest := by
            simp only [verifyRules, h]
          rw [hstep, verifyRules_ok_iff chk m r current₀ hcur rest]
          constructor
          · intro hall rule₁ hmem value hv
            rcases List.mem_cons.mp hmem with he | he
            · subst he; rw [h] at hv; cases hv
            · exact hall rule₁ he value hv
          · intro hall rule₁ hmem value hv
            exact hall rule₁ (List.mem_cons_of_mem _ hmem) value hv
      | some value =>
          have hstep : verifyRules chk m r (rule :: rest) =
              if current₀ ≠ value ∧ chk current₀ value = false then
                .error (.inconsistentAutoDeduction (.rel r) current₀ value)
              else verifyRules chk m r rest := by
            simp only [verifyRules, h, hcur]
          rw [hstep]
          by_cases hbad : current₀ ≠ value ∧ chk current₀ value = false
          · rw [if_pos hbad]
            constructor
            · intro hfalse; cases hfalse
            · intro hall
              rcases hall rule (List.mem_cons_self _ _) value h with he | he
              · exact absurd he hbad.1
              · rw [hbad.2] at he; cases he
          · rw [if_neg hbad]
            rw [verifyRules_ok_iff chk m r current₀ hcur rest]
            push_neg at hbad
            constructor
            · intro hall rule₁ hmem value₁ hv
              rcases List.mem_cons.mp hmem with he | he
              · subst he
                rw [h] at hv
                cases hv
                by_cases heq : current₀ = value
                · exact Or.inl heq
                · exact Or.inr (by simpa using hbad heq)
              · exact hall rule₁ he value₁ hv
            · intro hall rule₁ hmem value₁ hv
              exact hall rule₁ (List.mem_cons_of_mem _ hmem) value₁ hv

/-- When the inner rule loop of `verify_auto_deductions` fails, the error is
an `InconsistentAutoDeductionError` carrying the address, the stored value
and a rule-produced mismatching value. -/
theorem verifyRules_error (chk : MaybeRelocatable → MaybeRelocatable → Bool)
    (m : Memory) (r : RelocatableValue) (current₀ : MaybeRelocatable)
    (hcur : m.get (.rel r) = some current₀) :
    ∀ (rules : List Rule) (e : VmError), verifyRules chk m r rules = .error e →
      ∃ rule ∈ rules, ∃ value, rule m r = some value ∧
        e = .inconsistentAutoDeduction (.rel r) current₀ value ∧
        current₀ ≠ value ∧ chk current₀ value = false
  | [], e => by intro h; cases h
  | rule :: rest, e => by
      intro h
      cases hr : rule m r with
      | none =>
          simp only [verifyRules, hr] at h
          obtain ⟨rule₁, hmem, value, hv, he, hne, hchk⟩ :=
            verifyRules_error chk m r current₀ hcur rest e h
          exact ⟨rule₁, List.mem_cons_of_mem _ hmem, value, hv, he, hne, hchk⟩
      | some value =>
          simp only [verifyRules, hr, hcur] at h
          by_cases hbad : current₀ ≠ value ∧ chk current₀ value = false
          · rw [if_pos hbad] at h
            cases h
            exact ⟨rule, List.mem_cons_self _ _, value, hr, rfl, hbad.1, hbad.2⟩
          · rw [if_neg hbad] at h
            obtain ⟨rule₁, hmem, value₁, hv, he, hne, hchk⟩ :=
              verifyRules_error chk m r current₀ hcur rest e h
            exact ⟨rule₁, List.mem_cons_of_mem _ hmem, value₁, hv, he, hne, hchk⟩

/-- The outer loop of `verify_auto_deductions` succeeds exactly when every
relocatable address of the visited list is consistent with every rule of its
segment. -/
theorem verifyAddrs_ok_iff (s : VmState) :
    ∀ ks : List MaybeRelocatable,
      (∀ a ∈ ks, ∃ v, s.validated_memory.memory.get a = some v) →
      (verifyAddrs s ks = .ok () ↔
        ∀ r : RelocatableValue, MaybeRelocatable.rel r ∈ ks →
          ∀ rule ∈ s.rulesFor r.segment_index,
            ∀ value, rule s.validated_memory.memory r = some value →
              ∀ current, s.validated_memory.memory.get (.rel r) = some current →
                current = value ∨ s.check_eq current value = true)
  | [] => by intro hks; simp [verifyAddrs]
  | addr :: rest => by
      intro hks
      have hrest := verifyAddrs_ok_iff s rest (fun a ha => hks a (List.mem_cons_of_mem _ ha))
      cases addr with
      | int n =>
          have hstep : verifyAddrs s (MaybeRelocatable.int n :: rest) = verifyAddrs s rest := by
            simp only [verifyAddrs]
          rw [hstep, hrest]
          constructor
          · intro hall r hr
            rcases List.mem_cons.mp hr with he | he
            · cases he
            · exact hall r he
          · intro hall r hr
            exact hall r (List.mem_cons_of_mem _ hr)
      | rel r₀ =>
          obtain ⟨cur₀, hcur⟩ := hks (.rel r₀) (List.mem_cons_self _ _)
          cases hv : verifyRules s.check_eq s.validated_memory.memory r₀
              (s.rulesFor r₀.segment_index) with
          | error e =>
              have hlhs : verifyAddrs s (MaybeRelocatable.rel r₀ :: rest) = .error e := by
                simp only [verifyAddrs, hv, bind, Except.bind]
              rw [hlhs]
              obtain ⟨rule, hmem, value, hval, _, hne, hchk⟩ :=
                verifyRules_error s.check_eq s.validated_memory.memory r₀ cur₀ hcur
                  (s.rulesFor r₀.segment_index) e hv
              constructor
              · intro hfalse; cases hfalse
              · intro hall
                rcases hall r₀ (List.mem_cons_self _ _) rule hmem value hval cur₀ hcur with
                  he | he
                · exact absurd he hne
                · rw [hchk] at he; cases he
          | ok u =>
              cases u
              have hlhs : verifyAddrs s (MaybeRelocatable.rel r₀ :: rest) =
                  verifyAddrs s rest := by
                simp only [verifyAddrs, hv, bind, Except.bind]
              rw [hlhs, hrest]
              have hhead := (verifyRules_ok_iff s.check_eq s.validated_memory.memory r₀ cur₀
                hcur (s.rulesFor r₀.segment_index)).mp hv
              constructor
              · intro hall r hr rule hmem value hval current hcurrent
                rcases List.mem_cons.mp hr with he | he
                · cases he
                  have : current = cur₀ := by
                    rw [hcur] at hcurrent; cases hcurrent; rfl
                  subst this
                  exact hhead rule hmem value hval
                · exact hall r he rule hmem value hval current hcurrent
              · intro hall r hr rule hmem value hval current hcurrent
                exact hall r (List.mem_cons_of_mem _ hr) rule hmem value hval current hcurrent

/-- A failure of the outer loop of `verify_auto_deductions` is an
`InconsistentAutoDeductionError` at some visited relocatable address whose
stored value a rule contradicts. -/
theorem verifyAddrs_error (s : VmState) :
    ∀ ks : List MaybeRelocatable,
      (∀ a ∈ ks, ∃ v, s.validated_memory.memory.get a = some v) →
      ∀ e : VmError, verifyAddrs s ks = .error e →
        ∃ (r : RelocatableValue) (current value : MaybeRelocatable),
          e = .inconsistentAutoDeduction (.rel r) current value ∧
          MaybeRelocatable.rel r ∈ ks ∧
          (∃ rule ∈ s.rulesFor r.segment_index,
            rule s.validated_memory.memory r = some value) ∧
          s.validated_memory.memory.get (.rel r) = some current ∧
          current ≠ value ∧ s.check_eq current value = false
  | [] => by intro _ e h; cases h
  | addr :: rest => by
      intro hks e h
      have hksr := fun a ha => hks a (List.mem_cons_of_mem _ ha)
      cases addr with
      | int n =>
          have hstep : verifyAddrs s (MaybeRelocatable.int n :: rest) = verifyAddrs s rest := by
            simp only [verifyAddrs]
          rw [hstep] at h
          obtain ⟨r, current, value, he, hmem, hrule, hcur, hne, hchk⟩ :=
            verifyAddrs_error s rest hksr e h
          exact ⟨r, current, value, he, List.mem_cons_of_mem _ hmem, hrule, hcur, hne, hchk⟩
      | rel r₀ =>
          obtain ⟨cur₀, hcur⟩ := hks (.rel r₀) (List.mem_cons_self _ _)
          cases hv : verifyRules s.check_eq s.validated_memory.memory r₀
              (s.rulesFor r₀.segment_index) with
          | error e₁ =>
              have hlhs : verifyAddrs s (MaybeRelocatable.rel r₀ :: rest) = .error e₁ := by
                simp only [verifyAddrs, hv, bind, Except.bind]
              rw [hlhs] at h
              cases h
              obtain ⟨rule, hmem, value, hval, he, hne, hchk⟩ :=
                verifyRules_error s.check_eq s.validated_memory.memory r₀ cur₀ hcur
                  (s.rulesFor r₀.segment_index) e hv
              exact ⟨r₀, cur₀, value, he, List.mem_cons_self _ _, ⟨rule, hmem, hval⟩,
                hcur, hne, hchk⟩
          | ok u =>
              cases u
              have hlhs : verifyAddrs s (MaybeRelocatable.rel r₀ :: rest) =
                  verifyAddrs s rest := by
                simp only [verifyAddrs, hv, bind, Except.bind]
              rw [hlhs] at h
              obtain ⟨r, current, value, he, hmem, hrule, hcur₁, hne, hchk⟩ :=
                verifyAddrs_error s rest hksr e h
              exact ⟨r, current, value, he, List.mem_cons_of_mem _ hmem, hrule, hcur₁,
                hne, hchk⟩

/-- C3: `verify_auto_deductions()` raises
`InconsistentAutoDeduction(addr, current, expected)` if and only if some
written relocatable address has an auto-deduction rule of its segment
returning a value `v` with `memory[addr] != v` and
`check_eq(memory[addr], v)` false; if every rule-produced value matches the
stored value (up to `check_eq`), it returns normally. -/
theorem verify_auto_deductions_iff (s : VmState) :
    (verify_auto_deductions s = .ok () ↔
      ∀ r : RelocatableValue, MaybeRelocatable.rel r ∈ s.validated_memory.memory.keys →
        ∀ rule ∈ s.rulesFor r.segment_index,
          ∀ value, rule s.validated_memory.memory r = some value →
            ∀ current, s.validated_memory.memory.get (.rel r) = some current →
              current = value ∨ s.check_eq current value = true) ∧
    (∀ e : VmError, verify_auto_deductions s = .error e →
      ∃ (r : RelocatableValue) (current value : MaybeRelocatable),
        e = .inconsistentAutoDeduction (.rel r) current value ∧
        MaybeRelocatable.rel r ∈ s.validated_memory.memory.keys ∧
        (∃ rule ∈ s.rulesFor r.segment_index,
          rule s.validated_memory.memory r = some value) ∧
        s.validated_memory.memory.get (.rel r) = some current ∧
        current ≠ value ∧ s.check_eq current value = false) := by
  constructor
  · exact verifyAddrs_ok_iff s s.validated_memory.memory.keys
      (fun a ha => Memory.get_isSome_of_mem_keys s.validated_memory.memory a ha)
  · exact verifyAddrs_error s s.validated_memory.memory.keys
      (fun a ha => Memory.get_isSome_of_mem_keys s.validated_memory.memory a ha)

/-- A concrete always-false `check_eq` used by the witnesses. -/
def chkFalse : MaybeRelocatable → MaybeRelocatable → Bool := fun _ _ => false

/-- A concrete auto-deduction rule producing 43 everywhere. -/
def ruleConst43 : Rule := fun _ _ => some (.int 43)

/-- A concrete auto-deduction rule producing 42 everywhere. -/
def ruleConst42 : Rule := fun _ _ => some (.int 42)

/-- A VM whose memory holds 42 at `(2, 5)` while the rule of segment 2
produces 43. -/
def sC3bad : VmState :=
  add_auto_deduction_rule
    (initVm 13 [] none [] rc0 [(.rel ⟨2, 5⟩, .int 42)] chkFalse) 2 ruleConst43

/-- A VM whose memory holds 42 at `(2, 5)` and whose rule of segment 2
produces the matching 42. -/
def sC3ok : VmState :=
  add_auto_deduction_rule
    (initVm 13 [] none [] rc0 [(.rel ⟨2, 5⟩, .int 42)] chkFalse) 2 ruleConst42

/-- Witness for C3: the mismatching rule raises
`InconsistentAutoDeduction((2,5), 42, 43)` (spec scenario 2), and the
matching rule verifies normally. -/
theorem verify_auto_deductions_witness :
    verify_auto_deductions sC3bad =
      .error (.inconsistentAutoDeduction (.rel ⟨2, 5⟩) (.int 42) (.int 43)) ∧
    verify_auto_deductions sC3ok = .ok () := by
  refine ⟨rfl, (verify_auto_deductions_iff sC3ok).1.mpr ?_⟩
  intro r hr rule hmem value hval current hcur
  have hr2 : MaybeRelocatable.rel r ∈ [MaybeRelocatable.rel ⟨2, 5⟩] := hr
  cases List.mem_singleton.mp hr2
  have hm2 : rule ∈ [ruleConst42] := hmem
  have hmeq := List.mem_singleton.mp hm2
  subst hmeq
  have hv2 : (some (MaybeRelocatable.int 42) : Option MaybeRelocatable) = some value := hval
  cases hv2
  have hc2 : (some (MaybeRelocatable.int 42) : Option MaybeRelocatable) = some current := hcur
  cases hc2
  exact Or.inl rfl

/-- C6: at each walked frame of `get_traceback_entries`, when
`memory[ret_pc-1]` is present and is a valid call-instruction encoding
without immediate, the recorded call pc is `ret_pc - 1` — with no hypothesis
on whether `(memory[ret_pc-2], memory[ret_pc-1])` would also encode a call
with immediate, so the single-word interpretation is preferred even in the
ambiguous case; only when that single-word check fails and the pair encodes
a call with immediate is the recorded call pc `ret_pc - 2`; when neither
holds the walk stops with the entries collected so far, and
`get_traceback_entries` returns the collected entries reversed (most recent
call last). -/
theorem traceback_call_disambiguation
    (isCall : MaybeRelocatable → Option MaybeRelocatable → Bool) (mem : Memory)
    (n : Nat) (fp entries_fp ret_pc : MaybeRelocatable)
    (entries : List MaybeRelocatable)
    (hterm : ¬ mem.get (fp.subInt 2) = some fp)
    (hfp : mem.get (fp.subInt 2) = some entries_fp)
    (hret : mem.get (fp.subInt 1) = some ret_pc) :
    (∀ i1, mem.get (ret_pc.subInt 1) = some i1 → isCall i1 none = true →
      tracebackLoop isCall mem (n + 1) fp entries =
        tracebackLoop isCall mem n entries_fp (entries ++ [ret_pc.subInt 1])) ∧
    (∀ i0 i1, mem.get (ret_pc.subInt 1) = some i1 → isCall i1 none = false →
      mem.get (ret_pc.subInt 2) = some i0 → isCall i0 (some i1) = true →
      tracebackLoop isCall mem (n + 1) fp entries =
        tracebackLoop isCall mem n entries_fp (entries ++ [ret_pc.subInt 2])) ∧
    ((∀ i1, mem.get (ret_pc.subInt 1) = some i1 →
        isCall i1 none = false ∧
        ∀ i0, mem.get (ret_pc.subInt 2) = some i0 → isCall i0 (some i1) = false) →
      tracebackLoop isCall mem (n + 1) fp entries = entries) ∧
    get_traceback_entries isCall mem fp =
      (tracebackLoop isCall mem MAX_TRACEBACK_ENTRIES fp []).reverse := by
  refine ⟨?_, ?_, ?_, rfl⟩
  · intro i1 hi1 hc1
    simp only [tracebackLoop]
    rw [if_neg hterm]
    simp only [hfp, hret, hi1, hc1, if_pos]
  · intro i0 i1 hi1 hc1 hi0 hc0
    simp only [tracebackLoop]
    rw [if_neg hterm]
    simp only [hfp, hret, hi1, hc1, hi0, hc0, Bool.false_eq_true, if_false, if_pos]
  · intro hnone
    simp only [tracebackLoop]
    rw [if_neg hterm]
    simp only [hfp, hret]
    cases hi1 : mem.get (ret_pc.subInt 1) with
    | none => rfl
    | some i1 =>
        have h1 := (hnone i1 hi1).1
        simp only [h1, Bool.false_eq_true, if_false]
        cases hi0 : mem.get (ret_pc.subInt 2) with
        | none => rfl
        | some i0 =>
            have h0 := (hnone i1 hi1).2 i0 hi0
            simp only [h0, Bool.false_eq_true, if_false]

/-- A concrete call-instruction predicate under which the single word 111
is a call without immediate while the pair `(222, 111)` is also a call with
immediate — the ambiguous situation of the claim. -/
def isCall6 : MaybeRelocatable → Option MaybeRelocatable → Bool := fun e imm =>
  match e, imm with
  | .int 111, none => true
  | .int 222, some (.int 111) => true
  | _, _ => false

/-- A concrete memory with one frame: previous fp `(1, 4)` at `(1, 8)`,
return pc `(0, 20)` at `(1, 9)`, both call interpretations available at
`(0, 18)`/`(0, 19)`, and the outermost-frame terminator at `(1, 2)`. -/
def mem6 : Memory :=
  [(.rel ⟨1, 8⟩, .rel ⟨1, 4⟩), (.rel ⟨1, 9⟩, .rel ⟨0, 20⟩),
   (.rel ⟨0, 18⟩, .int 222), (.rel ⟨0, 19⟩, .int 111),
   (.rel ⟨1, 2⟩, .rel ⟨1, 4⟩)]

/-- Witness for C6: in the ambiguous frame both decodings are calls, and the
walk records `ret_pc - 1 = (0, 19)` (the single-word preference), then stops
at the terminator, returning `[(0, 19)]`. -/
theorem traceback_witness :
    isCall6 (.int 111) none = true ∧
    isCall6 (.int 222) (some (.int 111)) = true ∧
    tracebackLoop isCall6 mem6 (19 + 1) (.rel ⟨1, 10⟩) [] =
      tracebackLoop isCall6 mem6 19 (.rel ⟨1, 4⟩) [.rel ⟨0, 19⟩] ∧
    get_traceback_entries isCall6 mem6 (.rel ⟨1, 10⟩) = [.rel ⟨0, 19⟩] := by
  have h := traceback_call_disambiguation isCall6 mem6 19 (.rel ⟨1, 10⟩)
    (.rel ⟨1, 4⟩) (.rel ⟨0, 20⟩) [] (by decide) (by decide) (by decide)
  exact ⟨rfl, rfl, h.1 (.int 111) (by decide) (by decide), by decide⟩

/-- A left fold of `min` is bounded by its initial value. -/
theorem foldl_min_le_init : ∀ (xs : List Int) (a : Int), xs.foldl min a ≤ a
  | [], a => le_refl a
  | x :: xs, a => le_trans (foldl_min_le_init xs (min a x)) (min_le_left a x)

/-- A left fold of `min` is bounded by every list element. -/
theorem foldl_min_le_mem : ∀ (xs : List Int) (a x : Int), x ∈ xs → xs.foldl min a ≤ x
  | [], _, _, h => absurd h (List.not_mem_nil _)
  | y :: xs, a, x, h => by
      rcases List.mem_cons.mp h with he | he
      · subst he
        exact le_trans (foldl_min_le_init xs (min a x)) (min_le_right a x)
      · exact foldl_min_le_mem xs (min a y) x he

/-- A left fold of `min` is the initial value or a list element. -/
theorem foldl_min_mem : ∀ (xs : List Int) (a : Int), xs.foldl min a = a ∨ xs.foldl min a ∈ xs
  | [], a => Or.inl rfl
  | x :: xs, a => by
      rcases foldl_min_mem xs (min a x) with h | h
      · rcases min_choice a x with hc | hc
        · exact Or.inl (by rw [List.foldl_cons, h, hc])
        · exact Or.inr (by rw [List.foldl_cons, h, hc]; exact List.mem_cons_self _ _)
      · exact Or.inr (List.mem_cons_of_mem _ h)

/-- Python `min(list)` returns an element that bounds the list below. -/
theorem listMin_spec (xs : List Int) (mn : Int) (h : listMin xs = some mn) :
    mn ∈ xs ∧ ∀ x ∈ xs, mn ≤ x := by
  cases xs with
  | nil => cases h
  | cons x rest =>
      simp only [listMin] at h
      cases h
      constructor
      · rcases foldl_min_mem rest x with h | h
        · rw [h]; exact List.mem_cons_self _ _
        · exact List.mem_cons_of_mem _ h
      · intro y hy
        rcases List.mem_cons.mp hy with he | he
        · rw [he]; exact foldl_min_le_init rest x
        · exact foldl_min_le_mem rest x y he

/-- A left fold of `max` is bounded below by its initial value. -/
theorem foldl_max_ge_init : ∀ (xs : List Int) (a : Int), a ≤ xs.foldl max a
  | [], a => le_refl a
  | x :: xs, a => le_trans (le_max_left a x) (foldl_max_ge_init xs (max a x))

/-- A left fold of `max` is bounded below by every list element. -/
theorem foldl_max_ge_mem : ∀ (xs : List Int) (a x : Int), x ∈ xs → x ≤ xs.foldl max a
  | [], _, _, h => absurd h (List.not_mem_nil _)
  | y :: xs, a, x, h => by
      rcases List.mem_cons.mp h with he | he
      · subst he
        exact le_trans (le_max_right a x) (foldl_max_ge_init xs (max a x))
      · exact foldl_max_ge_mem xs (max a y) x he

/-- A left fold of `max` is the initial value or a list element. -/
theorem foldl_max_mem : ∀ (xs : List Int) (a : Int), xs.foldl max a = a ∨ xs.foldl max a ∈ xs
  | [], a => Or.inl rfl
  | x :: xs, a => by
      rcases foldl_max_mem xs (max a x) with h | h
      · rcases max_choice a x with hc | hc
        · exact Or.inl (by rw [List.foldl_cons, h, hc])
        · exact Or.inr (by rw [List.foldl_cons, h, hc]; exact List.mem_cons_self _ _)
      · exact Or.inr (List.mem_cons_of_mem _ h)

/-- Python `max(list)` returns an element that bounds the list above. -/
theorem listMax_spec (xs : List Int) (mx : Int) (h : listMax xs = some mx) :
    mx ∈ xs ∧ ∀ x ∈ xs, x ≤ mx := by
  cases xs with
  | nil => cases h
  | cons x rest =>
      simp only [listMax] at h
      cases h
      constructor
      · rcases foldl_max_mem rest x with h | h
        · rw [h]; exact List.mem_cons_self _ _
        · exact List.mem_cons_of_mem _ h
      · intro y hy
        rcases List.mem_cons.mp hy with he | he
        · rw [he]; exact foldl_max_ge_init rest x
        · exact foldl_max_ge_mem rest x y he

/-- When every trace entry's pc holds a stored field element, the
offset-collection loop succeeds and produces exactly the offsets of the
claim, in trace order. -/
theorem collectOffsets_eq_allOffsets (decode : Int → Int × Int × Int × Int)
    (memory : Memory) :
    ∀ trace : List TraceEntry,
      (∀ e ∈ trace, ∃ enc : Int, memory.get e.pc = some (.int enc)) →
      collectOffsets decode memory trace = .ok (allOffsets decode memory trace)
  | [] => by intro _; rfl
  | entry :: rest => by
      intro hpcs
      obtain ⟨enc, henc⟩ := hpcs entry (List.mem_cons_self _ _)
      have hrest := collectOffsets_eq_allOffsets decode memory rest
        (fun e he => hpcs e (List.mem_cons_of_mem _ he))
      simp only [collectOffsets, henc, hrest, allOffsets, List.map_cons, List.flatten_cons,
        entryOffsets, Except.map]

/-- C8: for a trace whose every entry's pc holds a stored field element,
`get_perm_range_check_limits(trace, memory)` returns exactly the pair
`(min, max)` over all offsets `(off0, off1, off2)` decoded from
`memory[entry.pc]` across all trace entries. -/
theorem get_perm_range_check_limits_minmax (decode : Int → Int × Int × Int × Int)
    (trace : List TraceEntry) (memory : Memory) (mn mx : Int)
    (hpcs : ∀ e ∈ trace, ∃ enc : Int, memory.get e.pc = some (.int enc))
    (hmn : listMin (allOffsets decode memory trace) = some mn)
    (hmx : listMax (allOffsets decode memory trace) = some mx) :
    get_perm_range_check_limits decode trace memory = .ok (mn, mx) ∧
    mn ∈ allOffsets decode memory trace ∧
    mx ∈ allOffsets decode memory trace ∧
    ∀ o ∈ allOffsets decode memory trace, mn ≤ o ∧ o ≤ mx := by
  have hcoll := collectOffsets_eq_allOffsets decode memory trace hpcs
  obtain ⟨hmnmem, hmnle⟩ := listMin_spec _ mn hmn
  obtain ⟨hmxmem, hmxge⟩ := listMax_spec _ mx hmx
  refine ⟨?_, hmnmem, hmxmem, fun o ho => ⟨hmnle o ho, hmxge o ho⟩⟩
  simp only [get_perm_range_check_limits, hcoll, bind, Except.bind, hmn, hmx]

/-- A concrete decoder mapping a three-digit encoding to its digits as
`(off0, off1, off2)`. -/
def decodeDigits : Int → Int × Int × Int × Int :=
  fun n => (0, n / 100, n / 10 % 10, n % 10)

/-- A concrete three-entry trace at pcs 0, 1, 2. -/
def traceC8 : List TraceEntry :=
  [⟨.int 0, .int 0, .int 0⟩, ⟨.int 1, .int 0, .int 0⟩, ⟨.int 2, .int 0, .int 0⟩]

/-- A concrete memory whose cells at pcs 0, 1, 2 decode (under
`decodeDigits`) to the offsets `(1,2,3)`, `(0,5,2)`, `(4,4,4)` of the
claim's scenario. -/
def memC8 : Memory :=
  [(.int 0, .int 123), (.int 1, .int 52), (.int 2, .int 444)]

/-- Witness for C8: on the three-entry trace with decoded offsets
`(1,2,3), (0,5,2), (4,4,4)` the function returns `(0, 5)`. -/
theorem get_perm_range_check_limits_witness :
    get_perm_range_check_limits decodeDigits traceC8 memC8 = .ok (0, 5) := by
  have h := get_perm_range_check_limits_minmax decodeDigits traceC8 memC8 0 5
    (by
      intro e he
      rcases List.mem_cons.mp he with he₁ | he₁
      · exact ⟨123, by rw [he₁]; decide⟩
      rcases List.mem_cons.mp he₁ with he₂ | he₂
      · exact ⟨52, by rw [he₂]; decide⟩
      rcases List.mem_cons.mp he₂ with he₃ | he₃
      · exact ⟨444, by rw [he₃]; decide⟩
      · exact absurd he₃ (List.not_mem_nil _))
    (by decide) (by decide)
  exact h.1

/-- The binding overlay touches only the scope stack: registers, trace,
step counter and hint registry are untouched. -/
theorem prepareLocals_fields (s : VmState) (hint : CompiledHint) :
    (prepareLocals s hint).trace = s.trace ∧
    (prepareLocals s hint).run_context = s.run_context ∧
    (prepareLocals s hint).current_step = s.current_step := by
  cases h : s.exec_scopes with
  | nil => simp [prepareLocals, h]
  | cons top rest => simp [prepareLocals, h]

/-- Writing the hint-visible state back touches only memory, scopes and the
skip flag. -/
theorem applyHintVm_fields (s : VmState) (hv : HintVm) :
    (s.applyHintVm hv).trace = s.trace ∧
    (s.applyHintVm hv).run_context = s.run_context ∧
    (s.applyHintVm hv).current_step = s.current_step :=
  ⟨rfl, rfl, rfl⟩

/-- The dels after a hint touch only the scope stack. -/
theorem delHintBindings_fields (s : VmState) :
    (delHintBindings s).trace = s.trace ∧
    (delHintBindings s).run_context = s.run_context ∧
    (delHintBindings s).current_step = s.current_step := by
  cases h : s.exec_scopes with
  | nil => simp [delHintBindings, h]
  | cons top rest => simp [delHintBindings, h]

/-- Unfolding of the hint loop on an empty scope stack: `exec_scopes[-1]`
raises IndexError. -/
theorem execHints_cons_noscope (s : VmState) (hint : CompiledHint) (l : List CompiledHint)
    (hsc : s.exec_scopes = []) :
    execHints s (hint :: l) = .error .indexError := by
  simp only [execHints, hsc]

/-- Unfolding of the hint loop when the hint's compiled code fails. -/
theorem execHints_cons_error (s : VmState) (hint : CompiledHint) (l : List CompiledHint)
    (top : Scope) (scr : List Scope) (hsc : s.exec_scopes = top :: scr) (e : VmError)
    (hc : hint.compiled (prepareLocals s hint).toHintVm = .error e) :
    execHints s (hint :: l) = .error e := by
  simp only [execHints, hsc, bind, Except.bind, hc]

/-- Unfolding of the hint loop when the hint's compiled code succeeds: apply
the hint's effects, delete `ids`/`memory`, then either return early on the
skip flag or continue with the remaining hints. -/
theorem execHints_cons_ok (s : VmState) (hint : CompiledHint) (l : List CompiledHint)
    (top : Scope) (scr : List Scope) (hsc : s.exec_scopes = top :: scr) (hv : HintVm)
    (hc : hint.compiled (prepareLocals s hint).toHintVm = .ok hv) :
    execHints s (hint :: l) =
      if (delHintBindings ((prepareLocals s hint).applyHintVm hv)).skip_instruction_execution
          = true then
        .ok (delHintBindings ((prepareLocals s hint).applyHintVm hv), true)
      else
        execHints (delHintBindings ((prepareLocals s hint).applyHintVm hv)) l := by
  simp only [execHints, hsc, bind, Except.bind, hc]

/-- The hint loop of `step()` never changes the registers, the trace or the
step counter: hints reach only memory, scopes and the skip flag. -/
theorem execHints_preserves :
    ∀ (hs : List CompiledHint) (s s' : VmState) (b : Bool),
      execHints s hs = .ok (s', b) →
      s'.trace = s.trace ∧ s'.run_context = s.run_context ∧
        s'.current_step = s.current_step
  | [], s, s', b => by
      intro h
      simp only [execHints, Except.ok.injEq, Prod.mk.injEq] at h
      rw [← h.1]
      exact ⟨rfl, rfl, rfl⟩
  | hint :: rest, s, s', b => by
      intro h
      cases hsc : s.exec_scopes with
      | nil => rw [execHints_cons_noscope s hint rest hsc] at h; cases h
      | cons top scr =>
          cases hc : hint.compiled (prepareLocals s hint).toHintVm with
          | error e =>
              rw [execHints_cons_error s hint rest top scr hsc e hc] at h
              cases h
          | ok hv =>
              rw [execHints_cons_ok s hint rest top scr hsc hv hc] at h
              have hfields : (delHintBindings ((prepareLocals s hint).applyHintVm hv)).trace
                    = s.trace ∧
                  (delHintBindings ((prepareLocals s hint).applyHintVm hv)).run_context
                    = s.run_context ∧
                  (delHintBindings ((prepareLocals s hint).applyHintVm hv)).current_step
                    = s.current_step := by
                obtain ⟨d1, d2, d3⟩ :=
                  delHintBindings_fields ((prepareLocals s hint).applyHintVm hv)
                obtain ⟨a1, a2, a3⟩ := applyHintVm_fields (prepareLocals s hint) hv
                obtain ⟨p1, p2, p3⟩ := prepareLocals_fields s hint
                exact ⟨by rw [d1, a1, p1], by rw [d2, a2, p2], by rw [d3, a3, p3]⟩
              by_cases hskip : (delHintBindings ((prepareLocals s
                  hint).applyHintVm hv)).skip_instruction_execution = true
              · rw [if_pos hskip] at h
                simp only [Except.ok.injEq, Prod.mk.injEq] at h
                rw [← h.1]
                exact hfields
              · rw [if_neg hskip] at h
                obtain ⟨e1, e2, e3⟩ := execHints_preserves rest
                  (delHintBindings ((prepareLocals s hint).applyHintVm hv)) s' b h
                exact ⟨by rw [e1, hfields.1], by rw [e2, hfields.2.1],
                  by rw [e3, hfields.2.2]⟩

/-- Once the hint loop aborts with the skip flag, the hints not yet visited
are irrelevant: the loop returns the same skipped state on any extension of
the hint list. -/
theorem execHints_append_skip :
    ∀ (pre rest : List CompiledHint) (s s' : VmState),
      execHints s pre = .ok (s', true) →
      execHints s (pre ++ rest) = .ok (s', true)
  | [], rest, s, s' => by
      intro h
      simp only [execHints, Except.ok.injEq, Prod.mk.injEq] at h
      exact Bool.noConfusion h.2
  | hint :: pre, rest, s, s' => by
      intro h
      rw [List.cons_append]
      cases hsc : s.exec_scopes with
      | nil => rw [execHints_cons_noscope s hint pre hsc] at h; cases h
      | cons top scr =>
          cases hc : hint.compiled (prepareLocals s hint).toHintVm with
          | error e =>
              rw [execHints_cons_error s hint pre top scr hsc e hc] at h
              cases h
          | ok hv =>
              rw [execHints_cons_ok s hint pre top scr hsc hv hc] at h
              rw [execHints_cons_ok s hint (pre ++ rest) top scr hsc hv hc]
              by_cases hskip : (delHintBindings ((prepareLocals s
                  hint).applyHintVm hv)).skip_instruction_execution = true
              · rw [if_pos hskip] at h
                rw [if_pos hskip]
                exact h
              · rw [if_neg hskip] at h
                rw [if_neg hskip]
                exact execHints_append_skip pre rest
                  (delHintBindings ((prepareLocals s hint).applyHintVm hv)) s' h

/-- C2: if a hint at the current pc sets `skip_instruction_execution`,
`step()` returns immediately after that hint: the remaining hints at that
pc do not run (the result is the same for any suffix of the hint list), the
instruction is not decoded or executed (the result is independent of the
decode-and-run behaviour `decodeAndRun`), no trace entry is appended and
`pc`, `ap`, `fp` and `current_step` are unchanged; memory and scopes are
exactly those the executed hints produced. -/
theorem step_skips_instruction_on_flag
    (decodeAndRun : VmState → Except VmError VmState) (s s' : VmState)
    (pre rest : List CompiledHint)
    (hhints : hintsAt s s.run_context.pc = pre ++ rest)
    (hrun : execHints { s with skip_instruction_execution := false } pre = .ok (s', true)) :
    step decodeAndRun s = .ok s' ∧
    s'.trace = s.trace ∧ s'.run_context = s.run_context ∧
    s'.current_step = s.current_step := by
  have hhints0 : hintsAt { s with skip_instruction_execution := false }
      ({ s with skip_instruction_execution := false } : VmState).run_context.pc =
      pre ++ rest := hhints
  have hall := execHints_append_skip pre rest _ s' hrun
  constructor
  · simp only [step, bind, Except.bind, hhints0, hall]
    simp
  · exact execHints_preserves (pre ++ rest)
      { s with skip_instruction_execution := false } s' true hall

/-- A hint whose compiled code only sets the skip flag. -/
def hintSkip : CompiledHint :=
  { compiled := fun hv => .ok { hv with skip_instruction_execution := true }
    consts := fun _ _ _ _ => .obj "ids" }

/-- A concrete VM with the skipping hint registered at the current pc. -/
def sC2 : VmState :=
  { prime := 7
    builtin_runners := []
    exec_scopes := [[]]
    hints := [(.int 0, [hintSkip])]
    validated_memory := ⟨[], [], []⟩
    auto_deduction := []
    static_locals := []
    run_context := ⟨.int 0, .int 1, .int 2, 7⟩
    skip_instruction_execution := false
    trace := []
    current_step := 0
    check_eq := fun _ _ => true }

/-- The state `step()` returns on `sC2`: the overlay bindings minus the
deleted `ids` and `memory`, the skip flag set, everything else unchanged. -/
def sC2' : VmState :=
  { sC2 with
    skip_instruction_execution := true
    exec_scopes :=
      [[("ap", .val (.int 1)), ("fp", .val (.int 2)), ("pc", .val (.int 0)),
        ("current_step", .int 0), ("vm_load_program", .vmLoadProgram),
        ("vm_enter_scope", .vmEnterScope), ("vm_exit_scope", .vmExitScope)]] }

/-- Witness for C2: on `sC2`, `step` with a decode-and-run that would fail
returns the post-hint state untouched — same trace, registers and step
counter. -/
theorem step_skip_witness :
    step (fun _ => .error .typeError) sC2 = .ok sC2' ∧
    sC2'.trace = sC2.trace ∧ sC2'.run_context = sC2.run_context := by
  have h := step_skips_instruction_on_flag (fun _ => .error .typeError) sC2 sC2'
    [hintSkip] [] rfl rfl
  exact ⟨h.1, h.2.1, h.2.2.1⟩

/-- Looking up the key just assigned yields the assigned value. -/
theorem lookupPairs_setPair_self {α β : Type} [DecidableEq α] :
    ∀ (d : List (α × β)) (k : α) (v : β), lookupPairs (setPair d k v) k = some v
  | [], k, v => by simp [setPair, lookupPairs]
  | p :: rest, k, v => by
      by_cases hk : p.1 = k
      · subst hk
        simp [setPair, lookupPairs]
      · simp only [setPair, if_neg hk, lookupPairs, hk, if_false]
        exact lookupPairs_setPair_self rest k v

/-- Assignment leaves the other keys' bindings unchanged. -/
theorem lookupPairs_setPair_other {α β : Type} [DecidableEq α] :
    ∀ (d : List (α × β)) (k : α) (v : β) (k' : α), k' ≠ k →
      lookupPairs (setPair d k v) k' = lookupPairs d k'
  | [], k, v, k', h => by
      simp only [setPair, lookupPairs]
      rw [if_neg (fun he : k = k' => h he.symm)]
  | p :: rest, k, v, k', h => by
      by_cases hk : p.1 = k
      · subst hk
        have h' : ¬ p.1 = k' := fun he => h he.symm
        simp [setPair, lookupPairs, if_neg h']
      · by_cases hk' : p.1 = k'
        · simp only [setPair, if_neg hk, lookupPairs, if_pos hk']
        · simp only [setPair, if_neg hk, lookupPairs, if_neg hk']
          exact lookupPairs_setPair_other rest k v k' h

/-- The keys after an assignment are the old keys plus the assigned key. -/
theorem mem_keys_setPair {α β : Type} [DecidableEq α] :
    ∀ (d : List (α × β)) (k : α) (v : β) (x : α),
      (x ∈ (setPair d k v).map Prod.fst ↔ x ∈ d.map Prod.fst ∨ x = k)
  | [], k, v, x => by simp [setPair]
  | p :: rest, k, v, x => by
      by_cases hk : p.1 = k
      · have hs : setPair (p :: rest) k v = (k, v) :: rest := by
          rw [show setPair (p :: rest) k v =
            if p.1 = k then (k, v) :: rest else p :: setPair rest k v from rfl, if_pos hk]
        rw [hs]
        subst hk
        simp only [List.map_cons, List.mem_cons]
        tauto
      · simp only [setPair, if_neg hk, List.map_cons, List.mem_cons,
          mem_keys_setPair rest k v x]
        tauto

/-- Assignment preserves distinctness of the keys. -/
theorem nodup_keys_setPair {α β : Type} [DecidableEq α] :
    ∀ (d : List (α × β)) (k : α) (v : β),
      (d.map Prod.fst).Nodup → ((setPair d k v).map Prod.fst).Nodup
  | [], k, v, _ => by simp [setPair]
  | p :: rest, k, v, h => by
      rw [List.map_cons, List.nodup_cons] at h
      by_cases hk : p.1 = k
      · have hs : setPair (p :: rest) k v = (k, v) :: rest := by
          rw [show setPair (p :: rest) k v =
            if p.1 = k then (k, v) :: rest else p :: setPair rest k v from rfl, if_pos hk]
        rw [hs]
        subst hk
        simp only [List.map_cons, List.nodup_cons]
        exact ⟨h.1, h.2⟩
      · simp only [setPair, if_neg hk, List.map_cons, List.nodup_cons]
        refine ⟨?_, nodup_keys_setPair rest k v h.2⟩
        intro hmem
        rcases (mem_keys_setPair rest k v p.1).mp hmem with hm | hm
        · exact h.1 hm
        · exact hk hm

/-- A key outside the dictionary's keys has no binding. -/
theorem lookupPairs_none_of_not_mem {α β : Type} [DecidableEq α] :
    ∀ (d : List (α × β)) (k : α), k ∉ d.map Prod.fst → lookupPairs d k = none
  | [], _, _ => rfl
  | p :: rest, k, h => by
      simp only [List.map_cons, List.mem_cons] at h
      push_neg at h
      rw [lookupPairs, if_neg (fun he => h.1 he.symm)]
      exact lookupPairs_none_of_not_mem rest k h.2

/-- One step of Python `d.update(...)`. -/
theorem Scope.update_cons (d : Scope) (p : String × HintLocal)
    (upds : List (String × HintLocal)) :
    Scope.update d (p :: upds) = Scope.update (d.set p.1 p.2) upds := rfl

/-- A key bound by none of the updates keeps its old binding across
`d.update(upds)`. -/
theorem Scope.lookup_update_none :
    ∀ (upds : List (String × HintLocal)) (d : Scope) (k : String),
      lookupPairs upds k = none →
      Scope.lookup (Scope.update d upds) k = Scope.lookup d k
  | [], _, _, _ => rfl
  | (k₁, v₁) :: rest, d, k, h => by
      by_cases hk : k₁ = k
      · simp only [lookupPairs, if_pos hk] at h
        cases h
      · have h' : lookupPairs rest k = none := by simpa [lookupPairs, hk] using h
        rw [Scope.update_cons, Scope.lookup_update_none rest (d.set k₁ v₁) k h']
        exact lookupPairs_setPair_other d k₁ v₁ k (fun he => hk he.symm)

/-- A key bound by the (distinct-keyed) updates ends bound to its update
value across `d.update(upds)`. -/
theorem Scope.lookup_update_some :
    ∀ (upds : List (String × HintLocal)) (d : Scope) (k : String) (v : HintLocal),
      (upds.map Prod.fst).Nodup → lookupPairs upds k = some v →
      Scope.lookup (Scope.update d upds) k = some v
  | [], _, _, _, _, h => by cases h
  | (k₁, v₁) :: rest, d, k, v, hnd, h => by
      rw [List.map_cons, List.nodup_cons] at hnd
      rw [Scope.update_cons]
      by_cases hk : k₁ = k
      · simp only [lookupPairs, if_pos hk] at h
        subst hk
        have hnone : lookupPairs rest k₁ = none :=
          lookupPairs_none_of_not_mem rest k₁ hnd.1
        rw [Scope.lookup_update_none rest (d.set k₁ v₁) k₁ hnone]
        rw [show Scope.lookup (d.set k₁ v₁) k₁ = some v₁ from
          lookupPairs_setPair_self d k₁ v₁]
        exact h
      · have h' : lookupPairs rest k = some v := by simpa [lookupPairs, hk] using h
        exact Scope.lookup_update_some rest (d.set k₁ v₁) k v hnd.2 h'

/-- `d.update(upds)` preserves distinctness of the keys. -/
theorem Scope.nodup_keys_update :
    ∀ (upds : List (String × HintLocal)) (d : Scope),
      (d.map Prod.fst).Nodup → ((Scope.update d upds).map Prod.fst).Nodup
  | [], _, h => h
  | p :: rest, d, h => by
      rw [Scope.update_cons]
      exact Scope.nodup_keys_update rest (d.set p.1 p.2) (nodup_keys_setPair d p.1 p.2 h)

/-- The names `step()` rebinds in the top scope before every hint (so a
user-supplied static local of the same name would shadow them, because
`exec_locals.update(static_locals)` runs last). -/
def reservedHintNames : List String :=
  ["memory", "ap", "fp", "pc", "current_step", "ids",
   "vm_load_program", "vm_enter_scope", "vm_exit_scope"]

/-- C7 (amended): immediately before each hint's compiled code is executed
within `step()`, provided no user-supplied static local uses one of the
reserved names `memory`/`ap`/`fp`/`pc`/`current_step`/`ids`/
`vm_load_program`/`vm_enter_scope`/`vm_exit_scope`, the bindings dictionary
handed to the hint (the top of the scope stack, which `execHints` passes to
`hint.compiled` after `prepareLocals`) contains all those names — with
`memory`, `ap`, `fp`, `pc` bound to the current validated memory and
register values, `current_step` to the step counter and `ids` to
`hint.consts(pc, ap, fp, memory)` — plus every static local with its static
value, and the binding of `PRIME` equals the program prime. -/
theorem hint_bindings_before_execution (s : VmState) (hint : CompiledHint)
    (user : Scope) (top : Scope) (scr : List Scope)
    (hsc : s.exec_scopes = top :: scr)
    (hsl : s.static_locals = mkStaticLocals (some user) s.prime)
    (huser : (user.map Prod.fst).Nodup)
    (hshadow : ∀ n ∈ reservedHintNames, Scope.lookup user n = none) :
    Scope.lookup ((prepareLocals s hint).exec_scopes.headD []) "memory" =
      some (.mem s.validated_memory) ∧
    Scope.lookup ((prepareLocals s hint).exec_scopes.headD []) "ap" =
      some (.val s.run_context.ap) ∧
    Scope.lookup ((prepareLocals s hint).exec_scopes.headD []) "fp" =
      some (.val s.run_context.fp) ∧
    Scope.lookup ((prepareLocals s hint).exec_scopes.headD []) "pc" =
      some (.val s.run_context.pc) ∧
    Scope.lookup ((prepareLocals s hint).exec_scopes.headD []) "current_step" =
      some (.int s.current_step) ∧
    Scope.lookup ((prepareLocals s hint).exec_scopes.headD []) "ids" =
      some (hint.consts s.run_context.pc s.run_context.ap s.run_context.fp
        s.validated_memory) ∧
    Scope.lookup ((prepareLocals s hint).exec_scopes.headD []) "vm_load_program" =
      some .vmLoadProgram ∧
    Scope.lookup ((prepareLocals s hint).exec_scopes.headD []) "vm_enter_scope" =
      some .vmEnterScope ∧
    Scope.lookup ((prepareLocals s hint).exec_scopes.headD []) "vm_exit_scope" =
      some .vmExitScope ∧
    Scope.lookup ((prepareLocals s hint).exec_scopes.headD []) "PRIME" =
      some (.int s.prime) ∧
    (∀ (k : String) (v : HintLocal), Scope.lookup s.static_locals k = some v →
      Scope.lookup ((prepareLocals s hint).exec_scopes.headD []) k = some v) := by
  have hpre : (prepareLocals s hint).exec_scopes.headD [] =
      Scope.update (Scope.update top
        [("memory", .mem s.validated_memory),
         ("ap", .val s.run_context.ap),
         ("fp", .val s.run_context.fp),
         ("pc", .val s.run_context.pc),
         ("current_step", .int s.current_step),
         ("ids", hint.consts s.run_context.pc s.run_context.ap s.run_context.fp
            s.validated_memory),
         ("vm_load_program", .vmLoadProgram),
         ("vm_enter_scope", .vmEnterScope),
         ("vm_exit_scope", .vmExitScope)]) s.static_locals := by
    simp only [prepareLocals, hsc, List.headD_cons]
    rfl
  have hstatic_none : ∀ n ∈ reservedHintNames, lookupPairs s.static_locals n = none := by
    intro n hn
    have hb : lookupPairs (builtinStaticLocals s.prime) n = none := by
      simp only [reservedHintNames] at hn
      fin_cases hn <;> rfl
    rw [hsl]
    show Scope.lookup (Scope.update user (builtinStaticLocals s.prime)) n = none
    rw [Scope.lookup_update_none (builtinStaticLocals s.prime) user n hb]
    exact hshadow n hn
  have hovnd : (([("memory", HintLocal.mem s.validated_memory),
      ("ap", HintLocal.val s.run_context.ap),
      ("fp", HintLocal.val s.run_context.fp),
      ("pc", HintLocal.val s.run_context.pc),
      ("current_step", HintLocal.int s.current_step),
      ("ids", hint.consts s.run_context.pc s.run_context.ap s.run_context.fp
        s.validated_memory),
      ("vm_load_program", HintLocal.vmLoadProgram),
      ("vm_enter_scope", HintLocal.vmEnterScope),
      ("vm_exit_scope", HintLocal.vmExitScope)] : Scope).map Prod.fst).Nodup := by
    show (["memory", "ap", "fp", "pc", "current_step", "ids",
      "vm_load_program", "vm_enter_scope", "vm_exit_scope"] : List String).Nodup
    decide
  have hfin : ∀ (n : String) (v : HintLocal), n ∈ reservedHintNames →
      lookupPairs [("memory", HintLocal.mem s.validated_memory),
        ("ap", HintLocal.val s.run_context.ap),
        ("fp", HintLocal.val s.run_context.fp),
        ("pc", HintLocal.val s.run_context.pc),
        ("current_step", HintLocal.int s.current_step),
        ("ids", hint.consts s.run_context.pc s.run_context.ap s.run_context.fp
          s.validated_memory),
        ("vm_load_program", HintLocal.vmLoadProgram),
        ("vm_enter_scope", HintLocal.vmEnterScope),
        ("vm_exit_scope", HintLocal.vmExitScope)] n = some v →
      Scope.lookup ((prepareLocals s hint).exec_scopes.headD []) n = some v := by
    intro n v hn hov
    rw [hpre, Scope.lookup_update_none s.static_locals _ n (hstatic_none n hn)]
    exact Scope.lookup_update_some _ top n v hovnd hov
  have hstat_nodup : (s.static_locals.map Prod.fst).Nodup := by
    rw [hsl]
    show ((Scope.update user (builtinStaticLocals s.prime)).map Prod.fst).Nodup
    exact Scope.nodup_keys_update _ user huser
  have hpresence : ∀ (k : String) (v : HintLocal),
      Scope.lookup s.static_locals k = some v →
      Scope.lookup ((prepareLocals s hint).exec_scopes.headD []) k = some v := by
    intro k v hkv
    rw [hpre]
    exact Scope.lookup_update_some s.static_locals _ k v hstat_nodup hkv
  have hbn : ((builtinStaticLocals s.prime).map Prod.fst).Nodup := by
    show (["PRIME", "fadd", "fsub", "fmul", "fdiv", "fpow", "fis_quad_residue",
      "fsqrt", "safe_div"] : List String).Nodup
    decide
  have hPRIME : Scope.lookup s.static_locals "PRIME" = some (.int s.prime) := by
    rw [hsl]
    show Scope.lookup (Scope.update user (builtinStaticLocals s.prime)) "PRIME" =
      some (.int s.prime)
    exact Scope.lookup_update_some _ user "PRIME" _ hbn rfl
  refine ⟨hfin "memory" _ (by decide) rfl, hfin "ap" _ (by decide) rfl,
    hfin "fp" _ (by decide) rfl, hfin "pc" _ (by decide) rfl,
    hfin "current_step" _ (by decide) rfl, hfin "ids" _ (by decide) rfl,
    hfin "vm_load_program" _ (by decide) rfl, hfin "vm_enter_scope" _ (by decide) rfl,
    hfin "vm_exit_scope" _ (by decide) rfl, hpresence "PRIME" _ hPRIME, hpresence⟩

/-- A hint whose compiled code does nothing. -/
def hintC7 : CompiledHint :=
  { compiled := fun hv => .ok hv
    consts := fun _ _ _ _ => .obj "ids" }

/-- A VM constructed with the user static local `pc = 999` (which the
constructor accepts), while the run context's pc is 0. -/
def sC7 : VmState :=
  { sC2 with static_locals := mkStaticLocals (some [("pc", .int 999)]) 7 }

/-- C7 counterexample: with a user static local named `pc`, the binding
named `pc` handed to the hint is the static value 999, not the current
program counter — `exec_locals.update(static_locals)` runs after the
register overlay, so static locals shadow the per-step bindings and the
claim as stated fails. -/
theorem hint_bindings_counterexample :
    Scope.lookup ((prepareLocals sC7 hintC7).exec_scopes.headD []) "pc" =
      some (.int 999) ∧
    some (HintLocal.int 999) ≠ some (HintLocal.val sC7.run_context.pc) := by
  refine ⟨rfl, ?_⟩
  intro h
  injection h with h1
  exact HintLocal.noConfusion h1

/-- A VM with the non-shadowing user static local `foo = 5`, prime 11 and
registers `pc = 3`, `ap = 4`, `fp = 5`. -/
def sC7ok : VmState :=
  { sC2 with
    prime := 11
    static_locals := mkStaticLocals (some [("foo", .int 5)]) 11
    run_context := ⟨.int 3, .int 4, .int 5, 11⟩ }

/-- Witness for C7 at a concrete non-shadowing state: the `pc` binding is
the current program counter and `PRIME` is the program prime. -/
theorem hint_bindings_witness :
    Scope.lookup ((prepareLocals sC7ok hintC7).exec_scopes.headD []) "pc" =
      some (.val (.int 3)) ∧
    Scope.lookup ((prepareLocals sC7ok hintC7).exec_scopes.headD []) "PRIME" =
      some (.int 11) := by
  have h := hint_bindings_before_execution sC7ok hintC7 [("foo", HintLocal.int 5)] [] []
    rfl rfl (by decide)
    (by
      intro n hn
      simp only [reservedHintNames] at hn
      fin_cases hn <;> rfl)
  exact ⟨h.2.2.2.1, h.2.2.2.2.2.2.2.2.2.1⟩
